import Mathlib

/-!
Shallow embedding of the binomial min-heap of src/Heaps/BinomialMinHeap.h
(template class BinomialMinHeap, instantiated at Comparable = Int).

Modelling conventions:
* a raw pointer BinomialTreeNode* is a NodeP value: either null (nullptr)
  or a node carrying data, leftChild, nextSibling and order, exactly the
  fields of the struct;
* the heap object is a Heap value: mSize (the C++ int counter) together
  with the forest vector (std::vector of tree pointers);
* operations that can throw std::underflow_error, or that can run into
  undefined behaviour (out-of-bounds vector write, dereference of an
  invalid index), return Option: none covers the throw and the undefined
  outcomes, each branch is commented at its source line;
* the carry loop of insertTree walks slots treeOrder, treeOrder+1, ...;
  it is rendered structurally on the forest suffix starting at that slot
  (carryInsert); the untouched prefix is re-attached with take/drop.
-/

namespace BinHeap

/-- Model of a BinomialTreeNode* pointer: nullptr or a node with the four
fields data, leftChild, nextSibling, order of the C++ struct. -/
inductive NodeP where
  | null : NodeP
  | node (data : Int) (leftChild : NodeP) (nextSibling : NodeP) (order : Nat) : NodeP
deriving DecidableEq, Repr

/-- The heap object: int mSize and std::vector<BinomialTreeNode*> forest. -/
structure Heap where
  mSize : Int
  forest : List NodeP
deriving DecidableEq, Repr

/-- Default constructor: mSize = 0, empty forest. -/
def emptyHeap : Heap := ⟨0, []⟩

/-- bool isEmpty() const: mSize == 0. -/
def Heap.isEmpty (h : Heap) : Bool := h.mSize == 0

/-- int size() const: returns mSize. -/
def Heap.size (h : Heap) : Int := h.mSize

/-- combineTrees(first, second): null guards, then the root comparison
(swap when first->data > second->data), then
second->nextSibling = first->leftChild; first->leftChild = second;
first->order++. -/
def combineTrees : NodeP → NodeP → NodeP
  | .null, .null => .null
  | .null, .node d c s o => .node d c s o
  | .node d c s o, .null => .node d c s o
  | .node d1 c1 s1 o1, .node d2 c2 s2 o2 =>
      if d1 > d2 then
        .node d2 (.node d1 c1 c2 o1) s2 (o2 + 1)
      else
        .node d1 (.node d2 c2 c1 o2) s1 (o1 + 1)

/-- The while loop of insertTree on the forest suffix that starts at slot
treeOrder: an occupied slot is cleared and its tree combined with the
incoming one (the carry moves to the next slot); the first empty slot
receives the tree; running past the end is the push_back case. -/
def carryInsert : List NodeP → NodeP → List NodeP
  | [], t => [t]
  | .null :: rest, t => t :: rest
  | .node d c s o :: rest, t => .null :: carryInsert rest (combineTrees (.node d c s o) t)

/-- insertTree(treeNode): nullptr check, mSize += pow(2, treeOrder), then the
carry loop. When the initial treeOrder exceeds forest.size() the loop does
not run and the code executes forest[treeOrder] = treeNode, an
out-of-bounds std::vector write: undefined behaviour, modelled as none. -/
def insertTree (h : Heap) : NodeP → Option Heap
  | .null => some h
  | .node d c s o =>
      if o ≤ h.forest.length then
        some ⟨h.mSize + 2 ^ o, h.forest.take o ++ carryInsert (h.forest.drop o) (.node d c s o)⟩
      else none

/-- insert(element): wrap in a fresh order-0 node, insertTree. The none
branch of insertTree is unreachable at order 0 (0 ≤ forest.length always),
so insert is total as in the C++. -/
def insert (h : Heap) (x : Int) : Heap :=
  match insertTree h (.node x .null .null 0) with
  | some h' => h'
  | none => h

/-- mergeForest(otherForest): iterate the other forest in increasing slot
order, insertTree every occupied slot (the source slot is then nulled; for
a distinct other heap those writes do not feed back into the iteration, so
they are dropped from the recursion and reinstated in merge). -/
def mergeForestGo : Heap → List NodeP → Option Heap
  | h, [] => some h
  | h, .null :: rest => mergeForestGo h rest
  | h, .node d c s o :: rest =>
      match insertTree h (.node d c s o) with
      | some h' => mergeForestGo h' rest
      | none => none

/-- merge(heap): mergeForest(heap.forest). The argument heap keeps its
mSize (the code never resets it) while all its forest slots have been set
to nullptr. Result: (this heap, argument heap) after the call. -/
def merge (a b : Heap) : Option (Heap × Heap) :=
  match mergeForestGo a b.forest with
  | some a' => some (a', ⟨b.mSize, List.replicate b.forest.length .null⟩)
  | none => none

/-- The scan of minNodeIndex: walk the forest keeping the first strictly
smallest occupied root (min pointer modelled by its data) and its index;
minIndex starts at -1. -/
def minIdxGo : List NodeP → Nat → Option Int → Int → Int
  | [], _, _, minIndex => minIndex
  | .null :: rest, i, cur, minIndex => minIdxGo rest (i + 1) cur minIndex
  | .node d _ _ _ :: rest, i, none, _ => minIdxGo rest (i + 1) (some d) (i : Int)
  | .node d _ _ _ :: rest, i, some m, minIndex =>
      if d < m then minIdxGo rest (i + 1) (some d) (i : Int)
      else minIdxGo rest (i + 1) (some m) minIndex

/-- int minNodeIndex() const. -/
def minNodeIndex (f : List NodeP) : Int := minIdxGo f 0 none (-1)

/-- forest[i] for an int index: a negative index is an out-of-bounds
access (undefined behaviour), as is an index past the end. -/
def atIdx (f : List NodeP) (i : Int) : Option NodeP :=
  if i < 0 then none else f.get? i.toNat

/-- forest[i] = t for a plain index: out of range is undefined behaviour. -/
def vset (l : List NodeP) (i : Nat) (t : NodeP) : Option (List NodeP) :=
  if i < l.length then some (l.set i t) else none

/-- getMin(): throw underflow_error when isEmpty() (none), else
forest[minNodeIndex()]->data; a bad index or nullptr dereference is
undefined behaviour (none), unreachable on well-formed heaps. -/
def getMin (h : Heap) : Option Int :=
  if h.mSize = 0 then none
  else
    match atIdx h.forest (minNodeIndex h.forest) with
    | some (.node d _ _ _) => some d
    | _ => none

/-- The while(child) loop of deleteMin: drop each child of the removed
root into deletedRootChildren[child->order], cutting its nextSibling. -/
def placeChildren : List NodeP → NodeP → Option (List NodeP)
  | temp, .null => some temp
  | temp, .node d c s o =>
      match vset temp o (.node d c .null o) with
      | some temp' => placeChildren temp' s
      | none => none

/-- deleteMin(): throw when mSize == 0; find the minimum root, clear
forest[minRoot->order], mSize -= pow(2, minRoot->order), spread the
children over a temporary forest of minRoot->order + 2 slots, then
mergeForest it back. -/
def deleteMin (h : Heap) : Option Heap :=
  if h.mSize = 0 then none
  else
    match atIdx h.forest (minNodeIndex h.forest) with
    | some (.node _ c _ m) =>
        match vset h.forest m .null with
        | some f1 =>
            match placeChildren (List.replicate (m + 2) .null) c with
            | some temp => mergeForestGo ⟨h.mSize - 2 ^ m, f1⟩ temp
            | none => none
        | none => none
    | _ => none

/-- extractMin(): throw when isEmpty(); read forest[minNodeIndex()]->data,
deleteMin(), return the value. -/
def extractMin (h : Heap) : Option (Int × Heap) :=
  if h.mSize = 0 then none
  else
    match atIdx h.forest (minNodeIndex h.forest) with
    | some (.node d _ _ _) =>
        match deleteMin h with
        | some h' => some (d, h')
        | none => none
    | _ => none

/-- Values extracted until the heap reports empty, with explicit fuel; the
fuel used below is the tracked size, which is exactly the number of
successful extractions on a well-formed heap. -/
def drainGo : Nat → Heap → List Int
  | 0, _ => []
  | fuel + 1, h =>
      match extractMin h with
      | some (v, h') => v :: drainGo fuel h'
      | none => []

/-- Repeatedly calling extractMin() until the heap is empty. -/
def drain (h : Heap) : List Int := drainGo h.mSize.toNat h

/-- A heap populated by inserting the given values into a freshly
constructed heap. -/
def buildHeap (l : List Int) : Heap := l.foldl insert emptyHeap

/-- cloneTree: recursive deep copy of data, leftChild, nextSibling, order. -/
def cloneTree : NodeP → NodeP
  | .null => .null
  | .node d c s o => .node d (cloneTree c) (cloneTree s) o

/-- Copy assignment operator. The aliased flag models the pointer test
this == &other: when it holds the body is skipped and *this is returned
unchanged; otherwise the current forest is cleared and every slot of the
other forest is cloned in slot order. -/
def copyAssign (dst other : Heap) (aliased : Bool) : Heap :=
  if aliased then dst else ⟨other.mSize, other.forest.map cloneTree⟩

/-- Move constructor: steal forest and mSize, then other.forest.clear()
and other.mSize = 0. Returns (constructed heap, moved-from heap). -/
def moveConstruct (other : Heap) : Heap × Heap :=
  (⟨other.mSize, other.forest⟩, ⟨0, []⟩)

/-- Move assignment operator (aliased models this == &other): on a
distinct source, clear the current forest, steal the other's forest and
mSize, reset the other to size 0 with its vector left empty by the move.
Returns (assigned heap, moved-from heap). -/
def moveAssign (dst other : Heap) (aliased : Bool) : Heap × Heap :=
  if aliased then (dst, other) else (⟨other.mSize, other.forest⟩, ⟨0, []⟩)

/-- The order field of a tree pointer (0 is the struct default). -/
def orderOf : NodeP → Nat
  | .null => 0
  | .node _ _ _ o => o

/-- The data field behind a pointer, none for nullptr. -/
def dataOf : NodeP → Option Int
  | .null => none
  | .node d _ _ _ => some d

/-- Replace the nextSibling field of a node. -/
def withSibling : NodeP → NodeP → NodeP
  | .null, _ => .null
  | .node d c _ o, s => .node d c s o

/-! ### Invariants (the binomial-heap well-formedness used by the spec) -/

/-- Every data value reachable from the pointer (the node, its subtree and
all its siblings' subtrees) is at least v. -/
def lbounded (v : Int) : NodeP → Bool
  | .null => true
  | .node d c s _ => decide (v ≤ d) && lbounded v c && lbounded v s

/-- Min-heap order on every tree of the chain: each node's data bounds its
whole child chain from below. -/
def heapOrd : NodeP → Bool
  | .null => true
  | .node d c s _ => lbounded d c && heapOrd c && heapOrd s

/-- The sibling chain is the child chain of an order-k binomial node: its
members are binomial trees of orders k-1, k-2, ..., 0 in this sequence
(with correct order fields). -/
def binCh : NodeP → Nat → Bool
  | .null, k => k == 0
  | .node _ _ _ _, 0 => false
  | .node _ c s o, k + 1 => (o == k) && binCh c k && binCh s k

/-- A standalone root of order k: a node with nextSibling nullptr, order
field k, and binomial child chain of an order-k node. -/
def wfRoot : NodeP → Nat → Bool
  | .node _ c .null o, k => (o == k) && binCh c k
  | _, _ => false

/-- Forest slot i is either empty or a heap-ordered order-i root. -/
def slotOK : NodeP → Nat → Bool
  | .null, _ => true
  | .node d c s o, i => wfRoot (.node d c s o) i && heapOrd (.node d c s o)

/-- All slots of the forest are fine, the first one standing for index i. -/
def wfSlots : List NodeP → Nat → Bool
  | [], _ => true
  | p :: rest, i => slotOK p i && wfSlots rest (i + 1)

/-- Sum of 2^i over the occupied slots, the first slot counting as i. -/
def sumPow : List NodeP → Nat → Int
  | [], _ => 0
  | .null :: rest, i => sumPow rest (i + 1)
  | .node _ _ _ _ :: rest, i => 2 ^ i + sumPow rest (i + 1)

/-- Multiset of data values reachable from a pointer. -/
def elemsN : NodeP → Multiset Int
  | .null => 0
  | .node d c s _ => d ::ₘ (elemsN c + elemsN s)

/-- Multiset of data values of a forest. -/
def elemsF : List NodeP → Multiset Int
  | [] => 0
  | p :: rest => elemsN p + elemsF rest

/-- Multiset of elements held by a heap. -/
def elemsH (h : Heap) : Multiset Int := elemsF h.forest

/-- Well-formedness of a heap: every occupied slot i holds a heap-ordered
binomial root of order i, and mSize is the sum of 2^i over occupied
slots. -/
def Wf (h : Heap) : Prop := wfSlots h.forest 0 = true ∧ h.mSize = sumPow h.forest 0

instance (h : Heap) : Decidable (Wf h) := by unfold Wf; infer_instance

/-! ### Lower bounds and elements of a tree -/

theorem lbounded_mono {v w : Int} (hvw : v ≤ w) :
    ∀ p : NodeP, lbounded w p = true → lbounded v p = true
  | .null, _ => rfl
  | .node d c s _, hp => by
      simp only [lbounded, Bool.and_eq_true, decide_eq_true_eq] at hp ⊢
      exact ⟨⟨le_trans hvw hp.1.1, lbounded_mono hvw c hp.1.2⟩, lbounded_mono hvw s hp.2⟩

theorem lbounded_le {v : Int} :
    ∀ p : NodeP, lbounded v p = true → ∀ x ∈ elemsN p, v ≤ x
  | .null, _, x, hx => by simp [elemsN] at hx
  | .node d c s _, hp, x, hx => by
      simp only [lbounded, Bool.and_eq_true, decide_eq_true_eq] at hp
      simp only [elemsN, Multiset.mem_cons, Multiset.mem_add] at hx
      rcases hx with rfl | hx | hx
      · exact hp.1.1
      · exact lbounded_le c hp.1.2 x hx
      · exact lbounded_le s hp.2 x hx

/-- Combining two heap-ordered binomial roots of equal order k yields a
heap-ordered binomial root of order k + 1 holding the union of the
elements. -/
theorem combineTrees_wf {k : Nat} {da db : Int} {ca cb : NodeP}
    (hca : binCh ca k = true) (hcb : binCh cb k = true)
    (hha : heapOrd (.node da ca .null k) = true)
    (hhb : heapOrd (.node db cb .null k) = true) :
    wfRoot (combineTrees (.node da ca .null k) (.node db cb .null k)) (k + 1) = true ∧
    heapOrd (combineTrees (.node da ca .null k) (.node db cb .null k)) = true ∧
    elemsN (combineTrees (.node da ca .null k) (.node db cb .null k)) =
      elemsN (.node da ca .null k) + elemsN (.node db cb .null k) := by
  simp only [heapOrd, Bool.and_eq_true] at hha hhb
  by_cases hd : da > db
  · have hba : db ≤ da := le_of_lt hd
    simp only [combineTrees, if_pos hd]
    refine ⟨?_, ?_, ?_⟩
    · simp [wfRoot, binCh, hca, hcb]
    · simp only [heapOrd, lbounded, Bool.and_eq_true, decide_eq_true_eq]
      exact ⟨⟨⟨⟨hba, lbounded_mono hba ca hha.1.1⟩, hhb.1.1⟩,
        ⟨⟨hha.1.1, hha.1.2⟩, hhb.1.2⟩⟩, trivial⟩
    · simp only [elemsN, add_zero]
      rw [Multiset.cons_add, Multiset.add_cons, Multiset.cons_swap]
  · have hab : da ≤ db := le_of_not_lt hd
    simp only [combineTrees, if_neg hd]
    refine ⟨?_, ?_, ?_⟩
    · simp [wfRoot, binCh, hca, hcb]
    · simp only [heapOrd, lbounded, Bool.and_eq_true, decide_eq_true_eq]
      exact ⟨⟨⟨⟨hab, lbounded_mono hab cb hhb.1.1⟩, hha.1.1⟩,
        ⟨⟨hhb.1.1, hhb.1.2⟩, hha.1.2⟩⟩, trivial⟩
    · simp only [elemsN, add_zero]
      rw [Multiset.cons_add, Multiset.add_cons]
      rw [add_comm (elemsN cb) (elemsN ca)]

/-! ### Forest bookkeeping helpers -/

/-- The contribution of one slot to the size accounting. -/
def slotPow : NodeP → Nat → Int
  | .null, _ => 0
  | .node _ _ _ _, i => 2 ^ i

theorem sumPow_cons (p : NodeP) (rest : List NodeP) (i : Nat) :
    sumPow (p :: rest) i = slotPow p i + sumPow rest (i + 1) := by
  cases p <;> simp [sumPow, slotPow]

theorem elemsF_append : ∀ l1 l2 : List NodeP, elemsF (l1 ++ l2) = elemsF l1 + elemsF l2
  | [], l2 => by simp [elemsF]
  | p :: l1, l2 => by simp [elemsF, elemsF_append l1 l2, add_assoc]

theorem sumPow_append : ∀ (l1 l2 : List NodeP) (i : Nat),
    sumPow (l1 ++ l2) i = sumPow l1 i + sumPow l2 (i + l1.length)
  | [], l2, i => by simp [sumPow]
  | p :: l1, l2, i => by
      have harith : i + 1 + l1.length = i + (l1.length + 1) := by omega
      rw [List.cons_append, sumPow_cons, sumPow_cons, sumPow_append l1 l2 (i + 1),
        harith, List.length_cons, add_assoc]

theorem wfSlots_append : ∀ (l1 l2 : List NodeP) (i : Nat),
    wfSlots (l1 ++ l2) i = (wfSlots l1 i && wfSlots l2 (i + l1.length))
  | [], l2, i => by simp [wfSlots]
  | p :: l1, l2, i => by
      have harith : i + 1 + l1.length = i + (l1.length + 1) := by omega
      rw [List.cons_append, wfSlots, wfSlots, wfSlots_append l1 l2 (i + 1),
        harith, List.length_cons, Bool.and_assoc]

theorem wfSlots_get : ∀ {l : List NodeP} {i j : Nat} {p : NodeP},
    wfSlots l i = true → l.get? j = some p → slotOK p (i + j) = true
  | [], _, j, _, _, hg => by simp [List.get?] at hg
  | q :: rest, i, 0, p, hw, hg => by
      simp only [List.get?] at hg
      rw [wfSlots, Bool.and_eq_true] at hw
      cases hg
      simpa using hw.1
  | q :: rest, i, j + 1, p, hw, hg => by
      simp only [List.get?] at hg
      rw [wfSlots, Bool.and_eq_true] at hw
      have := wfSlots_get (l := rest) (i := i + 1) (j := j) hw.2 hg
      have harith : i + 1 + j = i + (j + 1) := by omega
      rwa [harith] at this

theorem wfSlots_set : ∀ {l : List NodeP} {i j : Nat} {t : NodeP},
    wfSlots l i = true → slotOK t (i + j) = true → wfSlots (l.set j t) i = true
  | [], _, _, _, hw, _ => hw
  | q :: rest, i, 0, t, hw, ht => by
      rw [wfSlots, Bool.and_eq_true] at hw
      rw [List.set_cons_zero, wfSlots, Bool.and_eq_true]
      exact ⟨by simpa using ht, hw.2⟩
  | q :: rest, i, j + 1, t, hw, ht => by
      rw [wfSlots, Bool.and_eq_true] at hw
      rw [List.set_cons_succ, wfSlots, Bool.and_eq_true]
      have harith : i + (j + 1) = i + 1 + j := by omega
      rw [harith] at ht
      exact ⟨hw.1, wfSlots_set hw.2 ht⟩

theorem elemsF_set : ∀ {l : List NodeP} {j : Nat} {p : NodeP} (t : NodeP),
    l.get? j = some p → elemsF (l.set j t) + elemsN p = elemsF l + elemsN t
  | [], j, _, _, hg => by simp [List.get?] at hg
  | q :: rest, 0, p, t, hg => by
      simp only [List.get?] at hg
      cases hg
      rw [List.set_cons_zero, elemsF, elemsF]
      simp only [add_comm, add_left_comm, add_assoc]
  | q :: rest, j + 1, p, t, hg => by
      simp only [List.get?] at hg
      have ih := elemsF_set (l := rest) (j := j) t hg
      rw [List.set_cons_succ, elemsF, elemsF, add_assoc, add_assoc, ih]

theorem sumPow_set : ∀ {l : List NodeP} {j : Nat} {p : NodeP} (t : NodeP) (i : Nat),
    l.get? j = some p → sumPow (l.set j t) i + slotPow p (i + j) = sumPow l i + slotPow t (i + j)
  | [], j, _, _, _, hg => by simp [List.get?] at hg
  | q :: rest, 0, p, t, i, hg => by
      simp only [List.get?] at hg
      cases hg
      rw [List.set_cons_zero, sumPow_cons, sumPow_cons]
      simp only [Nat.add_zero]
      linarith
  | q :: rest, j + 1, p, t, i, hg => by
      simp only [List.get?] at hg
      have ih := sumPow_set (l := rest) (j := j) t (i + 1) hg
      have harith : i + 1 + j = i + (j + 1) := by omega
      rw [harith] at ih
      rw [List.set_cons_succ, sumPow_cons, sumPow_cons]
      linarith [ih]

theorem mem_elemsF_of_get : ∀ {l : List NodeP} {j : Nat} {p : NodeP} {x : Int},
    l.get? j = some p → x ∈ elemsN p → x ∈ elemsF l
  | [], j, _, _, hg, _ => by simp [List.get?] at hg
  | q :: rest, 0, p, x, hg, hx => by
      simp only [List.get?] at hg
      cases hg
      rw [elemsF]
      exact Multiset.mem_add.mpr (Or.inl hx)
  | q :: rest, j + 1, p, x, hg, hx => by
      simp only [List.get?] at hg
      rw [elemsF]
      exact Multiset.mem_add.mpr (Or.inr (mem_elemsF_of_get hg hx))

theorem wfSlots_replicate : ∀ n i : Nat, wfSlots (List.replicate n .null) i = true
  | 0, _ => rfl
  | n + 1, i => by
      rw [List.replicate_succ, wfSlots, Bool.and_eq_true]
      exact ⟨rfl, wfSlots_replicate n (i + 1)⟩

theorem elemsF_replicate : ∀ n : Nat, elemsF (List.replicate n .null) = 0
  | 0 => rfl
  | n + 1 => by
      rw [List.replicate_succ, elemsF, elemsF_replicate n, elemsN, add_zero]

theorem sumPow_replicate : ∀ n i : Nat, sumPow (List.replicate n .null) i = 0
  | 0, _ => rfl
  | n + 1, i => by
      rw [List.replicate_succ, sumPow, sumPow_replicate n (i + 1)]

theorem get?_replicate_null : ∀ {n j : Nat}, j < n →
    (List.replicate n NodeP.null).get? j = some .null
  | 0, _, hj => absurd hj (by omega)
  | n + 1, 0, _ => by rw [List.replicate_succ]; rfl
  | n + 1, j + 1, hj => by
      rw [List.replicate_succ]
      simpa [List.get?] using get?_replicate_null (n := n) (j := j) (by omega)

theorem sumPow_nonneg : ∀ (l : List NodeP) (i : Nat), 0 ≤ sumPow l i
  | [], _ => le_refl 0
  | p :: rest, i => by
      rw [sumPow_cons]
      have h1 : (0 : Int) ≤ slotPow p i := by
        cases p
        · exact le_refl 0
        · simp only [slotPow]
          positivity
      have h2 := sumPow_nonneg rest (i + 1)
      omega

theorem elemsF_of_sumPow_zero : ∀ (l : List NodeP) (i : Nat),
    sumPow l i = 0 → elemsF l = 0
  | [], _, _ => rfl
  | .null :: rest, i, hs => by
      rw [sumPow] at hs
      rw [elemsF, elemsN, elemsF_of_sumPow_zero rest (i + 1) hs, zero_add]
  | .node d c s o :: rest, i, hs => by
      rw [sumPow] at hs
      have h1 : (0 : Int) < 2 ^ i := by positivity
      have h2 := sumPow_nonneg rest (i + 1)
      omega

theorem sumPow_of_all_null : ∀ (l : List NodeP) (i : Nat),
    (∀ p ∈ l, p = NodeP.null) → sumPow l i = 0
  | [], _, _ => rfl
  | p :: rest, i, hall => by
      have hp := hall p (List.mem_cons_self p rest)
      subst hp
      rw [sumPow]
      exact sumPow_of_all_null rest (i + 1) fun q hq => hall q (List.mem_cons_of_mem _ hq)

theorem elemsN_null : elemsN .null = 0 := rfl

theorem elemsN_node (d : Int) (c s : NodeP) (o : Nat) :
    elemsN (.node d c s o) = d ::ₘ (elemsN c + elemsN s) := rfl

theorem elemsF_nil : elemsF [] = 0 := rfl

theorem elemsF_cons (p : NodeP) (rest : List NodeP) :
    elemsF (p :: rest) = elemsN p + elemsF rest := rfl

theorem wfSlots_nil (i : Nat) : wfSlots [] i = true := rfl

theorem wfSlots_cons (p : NodeP) (rest : List NodeP) (i : Nat) :
    wfSlots (p :: rest) i = (slotOK p i && wfSlots rest (i + 1)) := rfl

theorem slotOK_null (i : Nat) : slotOK .null i = true := rfl

theorem slotOK_node (d : Int) (c s : NodeP) (o i : Nat) :
    slotOK (.node d c s o) i = (wfRoot (.node d c s o) i && heapOrd (.node d c s o)) := rfl

theorem carryInsert_nil (t : NodeP) : carryInsert [] t = [t] := rfl

theorem carryInsert_cons_null (rest : List NodeP) (t : NodeP) :
    carryInsert (.null :: rest) t = t :: rest := rfl

theorem carryInsert_cons_node (d : Int) (c s : NodeP) (o : Nat) (rest : List NodeP) (t : NodeP) :
    carryInsert (.node d c s o :: rest) t =
      .null :: carryInsert rest (combineTrees (.node d c s o) t) := rfl

theorem sumPow_nil (i : Nat) : sumPow [] i = 0 := rfl

theorem wfRoot_shape {d : Int} {c s : NodeP} {o k : Nat}
    (hr : wfRoot (.node d c s o) k = true) : s = .null ∧ o = k ∧ binCh c k = true := by
  cases s
  · simp only [wfRoot, Bool.and_eq_true, beq_iff_eq] at hr
    exact ⟨rfl, hr.1, hr.2⟩
  · simp [wfRoot] at hr

theorem heapOrd_node {d : Int} {c s : NodeP} {o : Nat}
    (hh : heapOrd (.node d c s o) = true) :
    lbounded d c = true ∧ heapOrd c = true ∧ heapOrd s = true := by
  simp only [heapOrd, Bool.and_eq_true] at hh
  exact ⟨hh.1.1, hh.1.2, hh.2⟩

/-! ### The carry loop of insertTree -/

/-- Folding a heap-ordered binomial root of order i into the forest suffix
that starts at slot i preserves well-formedness, adds exactly the tree's
elements, adds 2^i to the occupancy sum, and grows the suffix by at most
one slot. -/
theorem carryInsert_spec : ∀ (l : List NodeP) (i : Nat) (t : NodeP),
    wfSlots l i = true → wfRoot t i = true → heapOrd t = true →
    wfSlots (carryInsert l t) i = true ∧
    elemsF (carryInsert l t) = elemsF l + elemsN t ∧
    sumPow (carryInsert l t) i = sumPow l i + 2 ^ i ∧
    l.length ≤ (carryInsert l t).length ∧ (carryInsert l t).length ≤ l.length + 1
  | [], i, t, _, hr, hh => by
      cases t with
      | null => simp [wfRoot] at hr
      | node dt ct st ot =>
          refine ⟨?_, ?_, ?_, ?_, ?_⟩
          · rw [carryInsert_nil, wfSlots_cons, wfSlots_nil, slotOK_node, hr, hh]
            rfl
          · rw [carryInsert_nil, elemsF_cons, elemsF_nil, add_zero, zero_add]
          · rw [carryInsert_nil, sumPow_cons, sumPow_nil, sumPow_nil, slotPow, add_zero, zero_add]
          · simp [carryInsert_nil]
          · simp [carryInsert_nil]
  | .null :: rest, i, t, hw, hr, hh => by
      rw [wfSlots_cons, Bool.and_eq_true] at hw
      cases t with
      | null => simp [wfRoot] at hr
      | node dt ct st ot =>
          refine ⟨?_, ?_, ?_, ?_, ?_⟩
          · rw [carryInsert_cons_null, wfSlots_cons, slotOK_node, hr, hh]
            rw [Bool.and_self, Bool.true_and]
            exact hw.2
          · rw [carryInsert_cons_null, elemsF_cons, elemsF_cons, elemsN_null, zero_add, add_comm]
          · rw [carryInsert_cons_null, sumPow_cons, sumPow_cons, slotPow, slotPow, zero_add, add_comm]
          · simp [carryInsert_cons_null]
          · simp [carryInsert_cons_null]
  | .node dq cq sq oq :: rest, i, t, hw, hr, hh => by
      rw [wfSlots_cons, Bool.and_eq_true, slotOK_node, Bool.and_eq_true] at hw
      obtain ⟨⟨hqr, hqh⟩, hwrest⟩ := hw
      obtain ⟨hsq, hoq, hbq⟩ := wfRoot_shape hqr
      subst hsq
      rw [hoq] at hqh ⊢
      cases t with
      | null => simp [wfRoot] at hr
      | node dt ct st ot =>
          obtain ⟨hst, hot, hbt⟩ := wfRoot_shape hr
          subst hst
          rw [hot] at hh ⊢
          have hcomb := combineTrees_wf hbq hbt hqh hh
          have ih := carryInsert_spec rest (i + 1)
            (combineTrees (.node dq cq .null i) (.node dt ct .null i))
            hwrest hcomb.1 hcomb.2.1
          refine ⟨?_, ?_, ?_, ?_, ?_⟩
          · rw [carryInsert_cons_node, wfSlots_cons, slotOK_null, Bool.true_and]
            exact ih.1
          · rw [carryInsert_cons_node, elemsF_cons, elemsF_cons, elemsN_null, zero_add,
              ih.2.1, hcomb.2.2]
            simp only [add_comm, add_left_comm, add_assoc]
          · rw [carryInsert_cons_node, sumPow_cons, sumPow_cons, slotPow, slotPow,
              zero_add, ih.2.2.1]
            have hp : (2 : Int) ^ (i + 1) = 2 ^ i + 2 ^ i := by
              rw [pow_succ]; ring
            rw [hp]
            ring
          · have := ih.2.2.2.1
            simp only [carryInsert_cons_node, List.length_cons]
            omega
          · have := ih.2.2.2.2
            simp only [carryInsert_cons_node, List.length_cons]
            omega

/-- insertTree on a heap-ordered binomial root whose order is at most the
forest length succeeds and performs the carry insertion: the heap stays
well-formed, gains the tree's elements, gains 2^o in mSize, and its forest
never shrinks. -/
theorem insertTree_spec {h : Heap} {d : Int} {c s : NodeP} {o : Nat}
    (hwf : Wf h) (hr : wfRoot (.node d c s o) o = true)
    (hh : heapOrd (.node d c s o) = true) (hle : o ≤ h.forest.length) :
    ∃ h', insertTree h (.node d c s o) = some h' ∧ Wf h' ∧
      elemsH h' = elemsH h + elemsN (.node d c s o) ∧
      h'.mSize = h.mSize + 2 ^ o ∧ h.forest.length ≤ h'.forest.length := by
  have htd : h.forest.take o ++ h.forest.drop o = h.forest := List.take_append_drop o h.forest
  have hlt : (h.forest.take o).length = o := by
    rw [List.length_take]
    omega
  have hwsplit : wfSlots (h.forest.take o) 0 = true ∧ wfSlots (h.forest.drop o) o = true := by
    have hws := wfSlots_append (h.forest.take o) (h.forest.drop o) 0
    rw [htd, hlt, Nat.zero_add] at hws
    have hw1 := hwf.1
    rw [hws, Bool.and_eq_true] at hw1
    exact hw1
  have hci := carryInsert_spec (h.forest.drop o) o (.node d c s o) hwsplit.2 hr hh
  refine ⟨_, by rw [insertTree, if_pos hle], ?_, ?_, rfl, ?_⟩
  · constructor
    · show wfSlots (h.forest.take o ++ carryInsert (h.forest.drop o) (.node d c s o)) 0 = true
      rw [wfSlots_append, hlt, Nat.zero_add, Bool.and_eq_true]
      exact ⟨hwsplit.1, hci.1⟩
    · show h.mSize + 2 ^ o =
        sumPow (h.forest.take o ++ carryInsert (h.forest.drop o) (.node d c s o)) 0
      rw [sumPow_append, hlt, Nat.zero_add, hci.2.2.1]
      have hsp : sumPow h.forest 0 = sumPow (h.forest.take o) 0 + sumPow (h.forest.drop o) o := by
        conv_lhs => rw [← htd]
        rw [sumPow_append, hlt, Nat.zero_add]
      rw [hwf.2, hsp]
      ring
  · show elemsF (h.forest.take o ++ carryInsert (h.forest.drop o) (.node d c s o)) =
      elemsF h.forest + elemsN (.node d c s o)
    rw [elemsF_append, hci.2.1]
    conv_rhs => rw [← htd]
    rw [elemsF_append, add_assoc]
  · show h.forest.length ≤
      (h.forest.take o ++ carryInsert (h.forest.drop o) (.node d c s o)).length
    have := hci.2.2.2.1
    rw [List.length_append, hlt]
    have hld : (h.forest.drop o).length = h.forest.length - o := List.length_drop o h.forest
    omega

/-- mergeForest on a well-formed other forest whose occupied slots all fit
inside the current forest succeeds: the heap stays well-formed, gains all
the other forest's elements and its occupancy sum, and the forest never
shrinks. -/
theorem mergeForestGo_spec : ∀ (l : List NodeP) (i : Nat) (h : Heap),
    Wf h → wfSlots l i = true →
    (∀ j p, l.get? j = some p → p ≠ .null → i + j ≤ h.forest.length) →
    ∃ h', mergeForestGo h l = some h' ∧ Wf h' ∧
      elemsH h' = elemsH h + elemsF l ∧
      h'.mSize = h.mSize + sumPow l i ∧ h.forest.length ≤ h'.forest.length
  | [], i, h, hwf, _, _ => by
      refine ⟨h, rfl, hwf, ?_, ?_, le_refl _⟩
      · rw [elemsF_nil, add_zero]
      · rw [sumPow_nil, add_zero]
  | .null :: rest, i, h, hwf, hw, hocc => by
      rw [wfSlots_cons, Bool.and_eq_true] at hw
      have hocc' : ∀ j p, rest.get? j = some p → p ≠ .null → i + 1 + j ≤ h.forest.length := by
        intro j p hg hp
        have := hocc (j + 1) p (by simpa [List.get?] using hg) hp
        omega
      obtain ⟨h', h1, h2, h3, h4, h5⟩ := mergeForestGo_spec rest (i + 1) h hwf hw.2 hocc'
      refine ⟨h', h1, h2, ?_, ?_, h5⟩
      · rw [h3, elemsF_cons, elemsN_null, zero_add]
      · rw [h4, sumPow_cons, slotPow]
        ring
  | .node dq cq sq oq :: rest, i, h, hwf, hw, hocc => by
      rw [wfSlots_cons, Bool.and_eq_true, slotOK_node, Bool.and_eq_true] at hw
      obtain ⟨⟨hqr, hqh⟩, hwrest⟩ := hw
      obtain ⟨hsq, hoq, _⟩ := wfRoot_shape hqr
      subst hsq
      have hle : oq ≤ h.forest.length := by
        have := hocc 0 (.node dq cq .null oq) rfl (by intro hcon; cases hcon)
        omega
      have hroq : wfRoot (.node dq cq .null oq) oq = true := by rw [hoq]; rwa [hoq] at hqr
      obtain ⟨h1, heq1, hwf1, helems1, hsize1, hlen1⟩ :=
        insertTree_spec hwf hroq hqh hle
      have hocc' : ∀ j p, rest.get? j = some p → p ≠ .null → i + 1 + j ≤ h1.forest.length := by
        intro j p hg hp
        have := hocc (j + 1) p (by simpa [List.get?] using hg) hp
        omega
      obtain ⟨h', heq', hwf', helems', hsize', hlen'⟩ :=
        mergeForestGo_spec rest (i + 1) h1 hwf1 hwrest hocc'
      refine ⟨h', ?_, hwf', ?_, ?_, le_trans hlen1 hlen'⟩
      · show mergeForestGo h (.node dq cq .null oq :: rest) = some h'
        simp only [mergeForestGo, heq1]
        exact heq'
      · rw [helems', helems1, elemsF_cons, add_assoc]
      · rw [hsize', hsize1, sumPow_cons, slotPow, hoq]
        ring

/-! ### The minimum scan -/

/-- d is a lower bound for the root data of every occupied slot. -/
def AllOccGE (d : Int) (l : List NodeP) : Prop :=
  ∀ p ∈ l, ∀ d' c s o, p = NodeP.node d' c s o → d ≤ d'

theorem allOccGE_cons_null {d : Int} {l : List NodeP} (h : AllOccGE d l) :
    AllOccGE d (.null :: l) := by
  intro p hp d' c s o hpe
  rcases List.mem_cons.mp hp with rfl | hp'
  · cases hpe
  · exact h p hp' d' c s o hpe

theorem allOccGE_cons_node {d dq : Int} {cq sq : NodeP} {oq : Nat} {l : List NodeP}
    (hd : d ≤ dq) (h : AllOccGE d l) : AllOccGE d (.node dq cq sq oq :: l) := by
  intro p hp d' c s o hpe
  rcases List.mem_cons.mp hp with rfl | hp'
  · cases hpe
    exact hd
  · exact h p hp' d' c s o hpe

/-- The accumulator invariant of the minNodeIndex loop when a current
minimum (with data d0) has already been found: the scan either keeps the
accumulated index (and d0 bounds every occupied slot of the remaining
list) or returns the index of an occupied slot whose data is strictly
below d0 and bounds every occupied slot. -/
theorem minIdxGo_some : ∀ (l : List NodeP) (i : Nat) (d0 : Int) (idx : Int),
    (minIdxGo l i (some d0) idx = idx ∧ AllOccGE d0 l) ∨
    (∃ j d c s o, l.get? j = some (.node d c s o) ∧
      minIdxGo l i (some d0) idx = ((i + j : Nat) : Int) ∧ d < d0 ∧ AllOccGE d l)
  | [], i, d0, idx => Or.inl ⟨rfl, by intro p hp; simp at hp⟩
  | .null :: rest, i, d0, idx => by
      rcases minIdxGo_some rest (i + 1) d0 idx with ⟨h1, h2⟩ | ⟨j, d, c, s, o, hg, hm, hlt, hb⟩
      · exact Or.inl ⟨h1, allOccGE_cons_null h2⟩
      · refine Or.inr ⟨j + 1, d, c, s, o, by simpa [List.get?] using hg, ?_, hlt,
          allOccGE_cons_null hb⟩
        show minIdxGo (.null :: rest) i (some d0) idx = _
        rw [minIdxGo, hm]
        congr 1
        omega
  | .node dq cq sq oq :: rest, i, d0, idx => by
      by_cases hlt : dq < d0
      · rcases minIdxGo_some rest (i + 1) dq (i : Int) with ⟨h1, h2⟩ |
          ⟨j, d, c, s, o, hg, hm, hlt', hb⟩
        · refine Or.inr ⟨0, dq, cq, sq, oq, rfl, ?_, hlt,
            allOccGE_cons_node (le_refl dq) h2⟩
          show minIdxGo (.node dq cq sq oq :: rest) i (some d0) idx = _
          rw [minIdxGo, if_pos hlt, h1]
          norm_num
        · refine Or.inr ⟨j + 1, d, c, s, o, by simpa [List.get?] using hg, ?_,
            lt_trans hlt' hlt, allOccGE_cons_node (le_of_lt hlt') hb⟩
          show minIdxGo (.node dq cq sq oq :: rest) i (some d0) idx = _
          rw [minIdxGo, if_pos hlt, hm]
          congr 1
          omega
      · have hge : d0 ≤ dq := le_of_not_lt hlt
        rcases minIdxGo_some rest (i + 1) d0 idx with ⟨h1, h2⟩ |
          ⟨j, d, c, s, o, hg, hm, hlt', hb⟩
        · refine Or.inl ⟨?_, allOccGE_cons_node hge h2⟩
          show minIdxGo (.node dq cq sq oq :: rest) i (some d0) idx = idx
          rw [minIdxGo, if_neg hlt, h1]
        · refine Or.inr ⟨j + 1, d, c, s, o, by simpa [List.get?] using hg, ?_, hlt',
            allOccGE_cons_node (le_trans (le_of_lt hlt') hge) hb⟩
          show minIdxGo (.node dq cq sq oq :: rest) i (some d0) idx = _
          rw [minIdxGo, if_neg hlt, hm]
          congr 1
          omega

/-- The minNodeIndex scan started with no current minimum: either the
whole list is empty slots (and the initial index, -1 at the top call, is
returned) or it returns the index of an occupied slot whose data bounds
every occupied slot from below. -/
theorem minIdxGo_none : ∀ (l : List NodeP) (i : Nat) (idx : Int),
    (minIdxGo l i none idx = idx ∧ ∀ p ∈ l, p = NodeP.null) ∨
    (∃ j d c s o, l.get? j = some (.node d c s o) ∧
      minIdxGo l i none idx = ((i + j : Nat) : Int) ∧ AllOccGE d l)
  | [], i, idx => Or.inl ⟨rfl, by intro p hp; simp at hp⟩
  | .null :: rest, i, idx => by
      rcases minIdxGo_none rest (i + 1) idx with ⟨h1, h2⟩ | ⟨j, d, c, s, o, hg, hm, hb⟩
      · refine Or.inl ⟨h1, ?_⟩
        intro p hp
        rcases List.mem_cons.mp hp with rfl | hp'
        · rfl
        · exact h2 p hp'
      · refine Or.inr ⟨j + 1, d, c, s, o, by simpa [List.get?] using hg, ?_,
          allOccGE_cons_null hb⟩
        show minIdxGo (.null :: rest) i none idx = _
        rw [minIdxGo, hm]
        congr 1
        omega
  | .node dq cq sq oq :: rest, i, idx => by
      rcases minIdxGo_some rest (i + 1) dq (i : Int) with ⟨h1, h2⟩ |
        ⟨j, d, c, s, o, hg, hm, hlt', hb⟩
      · refine Or.inr ⟨0, dq, cq, sq, oq, rfl, ?_, allOccGE_cons_node (le_refl dq) h2⟩
        show minIdxGo (.node dq cq sq oq :: rest) i none idx = _
        rw [minIdxGo, h1]
        norm_num
      · refine Or.inr ⟨j + 1, d, c, s, o, by simpa [List.get?] using hg, ?_,
          allOccGE_cons_node (le_of_lt hlt') hb⟩
        show minIdxGo (.node dq cq sq oq :: rest) i none idx = _
        rw [minIdxGo, hm]
        congr 1
        omega

/-- In a well-formed nonempty forest, minNodeIndex returns the index of an
occupied slot holding a binomial root of that order whose data bounds
every occupied root. -/
theorem minNodeIndex_spec {f : List NodeP} (hwf : wfSlots f 0 = true)
    (hne : sumPow f 0 ≠ 0) :
    ∃ j d c, f.get? j = some (.node d c .null j) ∧ minNodeIndex f = (j : Int) ∧
      binCh c j = true ∧ heapOrd (.node d c .null j) = true ∧ AllOccGE d f := by
  rcases minIdxGo_none f 0 (-1) with ⟨_, h2⟩ | ⟨j, d, c, s, o, hg, hm, hb⟩
  · exact absurd (sumPow_of_all_null f 0 h2) hne
  · have hslot := wfSlots_get hwf hg
    rw [slotOK_node, Bool.and_eq_true] at hslot
    obtain ⟨hsn, hoj, hbc⟩ := wfRoot_shape hslot.1
    subst hsn
    rw [Nat.zero_add] at hoj hbc
    subst hoj
    refine ⟨o, d, c, hg, ?_, hbc, hslot.2, hb⟩
    rw [minNodeIndex, hm]
    norm_num

/-- A lower bound on every occupied root of a well-formed forest is a
lower bound on every element. -/
theorem allOccGE_le_elemsF : ∀ {f : List NodeP} {i : Nat} {dm : Int},
    wfSlots f i = true → AllOccGE dm f → ∀ x ∈ elemsF f, dm ≤ x
  | [], _, _, _, _, x, hx => by simp [elemsF_nil] at hx
  | .null :: rest, i, dm, hw, hb, x, hx => by
      rw [wfSlots_cons, Bool.and_eq_true] at hw
      rw [elemsF_cons, elemsN_null, zero_add] at hx
      have hb' : AllOccGE dm rest := fun p hp => hb p (List.mem_cons_of_mem _ hp)
      exact allOccGE_le_elemsF hw.2 hb' x hx
  | .node dq cq sq oq :: rest, i, dm, hw, hb, x, hx => by
      rw [wfSlots_cons, Bool.and_eq_true, slotOK_node, Bool.and_eq_true] at hw
      obtain ⟨⟨hqr, hqh⟩, hwrest⟩ := hw
      obtain ⟨hsq, _, _⟩ := wfRoot_shape hqr
      subst hsq
      rw [elemsF_cons] at hx
      have hdm : dm ≤ dq :=
        hb _ (List.mem_cons_self _ _) dq cq .null oq rfl
      rcases Multiset.mem_add.mp hx with hx' | hx'
      · rw [elemsN_node, elemsN_null, add_zero] at hx'
        rcases Multiset.mem_cons.mp hx' with rfl | hx''
        · exact hdm
        · have hlb := (heapOrd_node hqh).1
          exact le_trans hdm (lbounded_le cq hlb x hx'')
      · have hb' : AllOccGE dm rest := fun p hp => hb p (List.mem_cons_of_mem _ hp)
        exact allOccGE_le_elemsF hwrest hb' x hx'

theorem get?_some_lt : ∀ {l : List NodeP} {j : Nat} {p : NodeP},
    l.get? j = some p → j < l.length
  | [], j, _, hg => by simp [List.get?] at hg
  | q :: rest, 0, p, _ => by simp
  | q :: rest, j + 1, p, hg => by
      simp only [List.get?] at hg
      have := get?_some_lt hg
      simp only [List.length_cons]
      omega

theorem get?_set_other : ∀ (l : List NodeP) (i j : Nat) (t : NodeP), i ≠ j →
    (l.set i t).get? j = l.get? j
  | [], _, _, _, _ => rfl
  | q :: rest, 0, 0, t, hne => absurd rfl hne
  | q :: rest, 0, j + 1, t, _ => by rw [List.set_cons_zero]; rfl
  | q :: rest, i + 1, 0, t, _ => by rw [List.set_cons_succ]; rfl
  | q :: rest, i + 1, j + 1, t, hne => by
      rw [List.set_cons_succ]
      simpa [List.get?] using get?_set_other rest i j t (by omega)

/-- Scattering the child chain of an order-k binomial root over an
all-empty-below-k temporary forest succeeds, fills slots below k with
heap-ordered binomial roots (slot = order), adds the chain's elements and
2^k - 1 to the occupancy sum, and occupies no slot at or above k. -/
theorem placeChildren_spec : ∀ (c : NodeP) (k : Nat) (temp : List NodeP),
    binCh c k = true → heapOrd c = true →
    k ≤ temp.length → (∀ j, j < k → temp.get? j = some .null) →
    wfSlots temp 0 = true →
    ∃ temp', placeChildren temp c = some temp' ∧ wfSlots temp' 0 = true ∧
      elemsF temp' = elemsF temp + elemsN c ∧
      sumPow temp' 0 = sumPow temp 0 + (2 ^ k - 1) ∧
      temp'.length = temp.length ∧
      (∀ j p, temp'.get? j = some p → p ≠ .null → j < k ∨ temp.get? j = some p)
  | .null, k, temp, hbc, _, _, _, hw => by
      have hk : k = 0 := by
        rw [binCh] at hbc
        exact beq_iff_eq.mp hbc
      subst hk
      refine ⟨temp, rfl, hw, ?_, ?_, rfl, ?_⟩
      · rw [elemsN_null, add_zero]
      · norm_num
      · intro j p hg _
        exact Or.inr hg
  | .node d cc ss o, k, temp, hbc, hho, hk, hnull, hw => by
      cases k with
      | zero => rw [binCh] at hbc; cases hbc
      | succ k' =>
          rw [binCh, Bool.and_eq_true, Bool.and_eq_true] at hbc
          obtain ⟨⟨hoe, hbcc⟩, hbss⟩ := hbc
          have ho : o = k' := beq_iff_eq.mp hoe
          subst ho
          obtain ⟨hlb, hhcc, hhss⟩ := heapOrd_node hho
          have holt : o < temp.length := by omega
          have htset : vset temp o (.node d cc .null o) = some (temp.set o (.node d cc .null o)) := by
            rw [vset, if_pos holt]
          have hw1 : wfSlots (temp.set o (.node d cc .null o)) 0 = true := by
            refine wfSlots_set hw ?_
            rw [Nat.zero_add, slotOK_node, Bool.and_eq_true]
            constructor
            · rw [wfRoot, Bool.and_eq_true]
              exact ⟨beq_self_eq_true o, hbcc⟩
            · rw [heapOrd, hlb, hhcc, Bool.and_eq_true]
              exact ⟨rfl, rfl⟩
          have hnull1 : ∀ j, j < o → (temp.set o (.node d cc .null o)).get? j = some .null := by
            intro j hj
            rw [get?_set_other temp o j _ (by omega)]
            exact hnull j (by omega)
          have hlen1 : (temp.set o (.node d cc .null o)).length = temp.length :=
            List.length_set temp o _
          obtain ⟨temp'', heq, hwf'', helems'', hsum'', hlen'', hocc''⟩ :=
            placeChildren_spec ss o (temp.set o (.node d cc .null o)) hbss hhss
              (by omega) hnull1 hw1
          have hget0 : temp.get? o = some .null := hnull o (by omega)
          refine ⟨temp'', ?_, hwf'', ?_, ?_, by omega, ?_⟩
          · show placeChildren temp (.node d cc ss o) = some temp''
            rw [placeChildren, htset]
            exact heq
          · have hset := elemsF_set (l := temp) (j := o) (.node d cc .null o) hget0
            rw [elemsN_null, add_zero] at hset
            rw [helems'', hset, elemsN_node, elemsN_node, elemsN_null, add_zero, add_assoc,
              Multiset.cons_add]
          · have hset := sumPow_set (l := temp) (j := o) (.node d cc .null o) 0 hget0
            rw [slotPow, slotPow, Nat.zero_add] at hset
            have hsum1 : sumPow (temp.set o (.node d cc .null o)) 0 = sumPow temp 0 + 2 ^ o := by
              omega
            rw [hsum'', hsum1]
            have hp : (2 : Int) ^ (o + 1) = 2 ^ o + 2 ^ o := by
              rw [pow_succ]; ring
            rw [hp]
            ring
          · intro j p hg hp
            rcases hocc'' j p hg hp with hj | hg'
            · exact Or.inl (by omega)
            · by_cases hjo : j = o
              · exact Or.inl (by omega)
              · rw [get?_set_other temp o j _ (by omega)] at hg'
                exact Or.inr hg'

/-! ### The public operations on well-formed heaps -/

/-- On a well-formed nonempty heap the three min operations agree: getMin
returns the least element d, deleteMin removes exactly one copy of d and
keeps the heap well-formed with mSize one smaller, and extractMin returns
both. -/
theorem deleteMin_core {h : Heap} (hwf : Wf h) (hne : h.mSize ≠ 0) :
    ∃ d h', getMin h = some d ∧ deleteMin h = some h' ∧
      extractMin h = some (d, h') ∧ Wf h' ∧
      elemsH h = d ::ₘ elemsH h' ∧ (∀ x ∈ elemsH h, d ≤ x) ∧
      h'.mSize = h.mSize - 1 := by
  have hsp : sumPow h.forest 0 ≠ 0 := by rw [← hwf.2]; exact hne
  obtain ⟨j, d, c, hg, hmi, hbc, hho, hb⟩ := minNodeIndex_spec hwf.1 hsp
  have hat : atIdx h.forest (minNodeIndex h.forest) = some (.node d c .null j) := by
    rw [hmi, atIdx, if_neg (not_lt.mpr (Int.natCast_nonneg j)), Int.toNat_natCast]
    exact hg
  have hjlt : j < h.forest.length := get?_some_lt hg
  have hv : vset h.forest j .null = some (h.forest.set j .null) := by
    rw [vset, if_pos hjlt]
  obtain ⟨temp', pcEq, pcWf, pcElems, pcSum, pcLen, pcOcc⟩ :=
    placeChildren_spec c j (List.replicate (j + 2) .null) hbc (heapOrd_node hho).2.1
      (by rw [List.length_replicate]; omega)
      (fun j' hj' => get?_replicate_null (by omega))
      (wfSlots_replicate (j + 2) 0)
  have hsetS := sumPow_set (l := h.forest) (j := j) .null 0 hg
  rw [slotPow, slotPow, Nat.zero_add] at hsetS
  have hwf1 : Wf ⟨h.mSize - 2 ^ j, h.forest.set j .null⟩ := by
    constructor
    · exact wfSlots_set hwf.1 rfl
    · show h.mSize - 2 ^ j = sumPow (h.forest.set j .null) 0
      have := hwf.2
      omega
  obtain ⟨h', mgEq, mgWf, mgElems, mgSize, _⟩ :=
    mergeForestGo_spec temp' 0 ⟨h.mSize - 2 ^ j, h.forest.set j .null⟩ hwf1 pcWf
      (by
        intro j' p hgp hp
        rcases pcOcc j' p hgp hp with hj' | hrep
        · have hlen : (h.forest.set j NodeP.null).length = h.forest.length :=
            List.length_set _ _ _
          show 0 + j' ≤ (h.forest.set j NodeP.null).length
          omega
        · have hlt : j' < (List.replicate (j + 2) NodeP.null).length := get?_some_lt hrep
          rw [List.length_replicate] at hlt
          rw [get?_replicate_null hlt] at hrep
          cases hrep
          exact absurd rfl hp)
  have hdel : deleteMin h = some h' := by
    rw [deleteMin, if_neg hne, hat]
    show (match vset h.forest j .null with
      | some f1 =>
          match placeChildren (List.replicate (j + 2) .null) c with
          | some temp => mergeForestGo ⟨h.mSize - 2 ^ j, f1⟩ temp
          | none => none
      | none => none) = some h'
    rw [hv, pcEq]
    exact mgEq
  have hgm : getMin h = some d := by
    rw [getMin, if_neg hne, hat]
  have helems : elemsH h = d ::ₘ elemsH h' := by
    have hsetE := elemsF_set (l := h.forest) (j := j) .null hg
    rw [elemsN_null, add_zero] at hsetE
    have : elemsH h' = elemsF (h.forest.set j .null) + (0 + elemsN c) := by
      rw [mgElems, pcElems, elemsF_replicate]
      rfl
    rw [this, zero_add]
    show elemsF h.forest = _
    rw [← hsetE, elemsN_node, elemsN_null, add_zero, Multiset.add_cons]
  refine ⟨d, h', hgm, hdel, ?_, mgWf, helems, allOccGE_le_elemsF hwf.1 hb, ?_⟩
  · rw [extractMin, if_neg hne, hat, hdel]
  · rw [mgSize, pcSum, sumPow_replicate]
    show h.mSize - 2 ^ j + (0 + (2 ^ j - 1)) = h.mSize - 1
    ring

/-- getMin on a well-formed nonempty heap returns the least element. -/
theorem getMin_spec {h : Heap} (hwf : Wf h) (hne : h.mSize ≠ 0) :
    ∃ d, getMin h = some d ∧ d ∈ elemsH h ∧ ∀ x ∈ elemsH h, d ≤ x := by
  obtain ⟨d, h', hgm, _, _, _, helems, hle, _⟩ := deleteMin_core hwf hne
  exact ⟨d, hgm, by rw [helems]; exact Multiset.mem_cons_self d _, hle⟩

/-- extractMin on a well-formed nonempty heap returns the least element
and the well-formed rest. -/
theorem extractMin_spec {h : Heap} (hwf : Wf h) (hne : h.mSize ≠ 0) :
    ∃ d h', extractMin h = some (d, h') ∧ Wf h' ∧
      elemsH h = d ::ₘ elemsH h' ∧ (∀ x ∈ elemsH h, d ≤ x) ∧
      h'.mSize = h.mSize - 1 := by
  obtain ⟨d, h', _, _, hex, hwf', helems, hle, hsz⟩ := deleteMin_core hwf hne
  exact ⟨d, h', hex, hwf', helems, hle, hsz⟩

/-- insert on a well-formed heap: still well-formed, one more copy of the
value, mSize + 1. -/
theorem insert_spec {h : Heap} (x : Int) (hwf : Wf h) :
    Wf (insert h x) ∧ elemsH (insert h x) = x ::ₘ elemsH h ∧
      (insert h x).mSize = h.mSize + 1 := by
  have hr : wfRoot (.node x .null .null 0) 0 = true := rfl
  have hh : heapOrd (.node x .null .null 0) = true := rfl
  obtain ⟨h', heq, hwf', helems, hsz, _⟩ :=
    insertTree_spec hwf hr hh (Nat.zero_le _)
  have hins : insert h x = h' := by
    rw [insert, heq]
  rw [hins]
  refine ⟨hwf', ?_, by rw [hsz]; norm_num⟩
  rw [helems, elemsN_node, elemsN_null, add_zero, Multiset.add_cons, add_zero]

theorem wf_emptyHeap : Wf emptyHeap := ⟨rfl, rfl⟩

/-- Folding insert over a value list keeps well-formedness, adds the list
to the elements, and adds the list length to mSize. -/
theorem foldl_insert_spec : ∀ (l : List Int) (h : Heap), Wf h →
    Wf (l.foldl insert h) ∧ elemsH (l.foldl insert h) = elemsH h + (↑l : Multiset Int) ∧
      (l.foldl insert h).mSize = h.mSize + l.length
  | [], h, hwf => ⟨hwf, by simp, by simp⟩
  | x :: l, h, hwf => by
      obtain ⟨hwf', helems, hsz⟩ := insert_spec x hwf
      obtain ⟨ih1, ih2, ih3⟩ := foldl_insert_spec l (insert h x) hwf'
      rw [List.foldl_cons]
      refine ⟨ih1, ?_, ?_⟩
      · rw [ih2, helems, ← Multiset.cons_coe, Multiset.cons_add, Multiset.add_cons]
      · rw [ih3, hsz, List.length_cons]
        push_cast
        ring

/-- Draining a well-formed heap with fuel equal to its tracked size yields
its elements in non-decreasing order. -/
theorem drainGo_spec : ∀ (n : Nat) (h : Heap), Wf h → h.mSize = (n : Int) →
    List.Sorted (· ≤ ·) (drainGo n h) ∧ (↑(drainGo n h) : Multiset Int) = elemsH h
  | 0, h, hwf, hsz => by
      refine ⟨List.sorted_nil, ?_⟩
      have hz : sumPow h.forest 0 = 0 := by
        rw [← hwf.2, hsz]
        rfl
      show (↑([] : List Int) : Multiset Int) = elemsH h
      rw [Multiset.coe_nil]
      exact (elemsF_of_sumPow_zero h.forest 0 hz).symm
  | n + 1, h, hwf, hsz => by
      have hne : h.mSize ≠ 0 := by
        rw [hsz]
        exact_mod_cast Nat.succ_ne_zero n
      obtain ⟨d, h', hex, hwf', helems, hle, hsz'⟩ := extractMin_spec hwf hne
      have hszn : h'.mSize = (n : Int) := by
        rw [hsz', hsz]
        push_cast
        ring
      obtain ⟨ihS, ihM⟩ := drainGo_spec n h' hwf' hszn
      have hdg : drainGo (n + 1) h = d :: drainGo n h' := by
        simp only [drainGo, hex]
      rw [hdg]
      constructor
      · rw [List.sorted_cons]
        refine ⟨?_, ihS⟩
        intro b hb
        have hbm : b ∈ elemsH h' := by
          rw [← ihM]
          exact Multiset.mem_coe.mpr hb
        exact hle b (by rw [helems]; exact Multiset.mem_cons_of_mem hbm)
      · show (↑(d :: drainGo n h') : Multiset Int) = elemsH h
        rw [← Multiset.cons_coe, ihM, ← helems]

/-- Claim C4: a heap populated by inserting a multiset of values, drained
by repeated extractMin until empty, returns exactly those values in
non-decreasing sorted order. -/
theorem claim_C4 (l : List Int) :
    List.Sorted (· ≤ ·) (drain (buildHeap l)) ∧
      (↑(drain (buildHeap l)) : Multiset Int) = (↑l : Multiset Int) := by
  obtain ⟨hwf, helems, hsz⟩ := foldl_insert_spec l emptyHeap wf_emptyHeap
  have hsz' : (buildHeap l).mSize = (l.length : Int) := by
    rw [buildHeap, hsz]
    show (0 : Int) + l.length = l.length
    ring
  have hdr : drain (buildHeap l) = drainGo l.length (buildHeap l) := by
    rw [drain, hsz', Int.toNat_natCast]
  obtain ⟨hS, hM⟩ := drainGo_spec l.length (buildHeap l) (by rw [buildHeap]; exact hwf) hsz'
  rw [hdr]
  refine ⟨hS, ?_⟩
  rw [hM]
  show elemsH (buildHeap l) = _
  rw [buildHeap, helems]
  show elemsF [] + _ = _
  rw [elemsF_nil, zero_add]

/-- Claim C5: getMin, deleteMin and extractMin raise the EmptyHeap error
(none) if and only if the well-formed heap is empty (size() == 0); on a
nonempty well-formed heap none of them fails. -/
theorem claim_C5 (h : Heap) (hwf : Wf h) :
    (getMin h = none ↔ h.size = 0) ∧ (deleteMin h = none ↔ h.size = 0) ∧
      (extractMin h = none ↔ h.size = 0) := by
  by_cases hne : h.mSize = 0
  · have hg : getMin h = none := by rw [getMin, if_pos hne]
    have hd : deleteMin h = none := by rw [deleteMin, if_pos hne]
    have he : extractMin h = none := by rw [extractMin, if_pos hne]
    exact ⟨⟨fun _ => hne, fun _ => hg⟩, ⟨fun _ => hne, fun _ => hd⟩, ⟨fun _ => hne, fun _ => he⟩⟩
  · obtain ⟨d, h', hgm, hdel, hex, _, _, _, _⟩ := deleteMin_core hwf hne
    refine ⟨⟨?_, fun hc => absurd hc hne⟩, ⟨?_, fun hc => absurd hc hne⟩,
      ⟨?_, fun hc => absurd hc hne⟩⟩
    · intro hc; rw [hgm] at hc; cases hc
    · intro hc; rw [hdel] at hc; cases hc
    · intro hc; rw [hex] at hc; cases hc

/-- Witness for claim C5 at the concrete heap built from [3, 1]. -/
theorem claim_C5_witness :
    (getMin (buildHeap [3, 1]) = none ↔ (buildHeap [3, 1]).size = 0) ∧
    (deleteMin (buildHeap [3, 1]) = none ↔ (buildHeap [3, 1]).size = 0) ∧
    (extractMin (buildHeap [3, 1]) = none ↔ (buildHeap [3, 1]).size = 0) :=
  claim_C5 (buildHeap [3, 1]) (by decide)

/-- Claim C7: on a well-formed nonempty heap getMin returns the minimum of
all inserted-but-not-yet-removed values; being a const observer it takes
the heap unchanged (the model function does not produce a heap). -/
theorem claim_C7 (h : Heap) (hwf : Wf h) (hne : h.size ≠ 0) :
    ∃ d, getMin h = some d ∧ d ∈ elemsH h ∧ ∀ x ∈ elemsH h, d ≤ x :=
  getMin_spec hwf hne

/-- Witness for claim C7 at the concrete heap built from [4, 2, 9]. -/
theorem claim_C7_witness :
    ∃ d, getMin (buildHeap [4, 2, 9]) = some d ∧ d ∈ elemsH (buildHeap [4, 2, 9]) ∧
      ∀ x ∈ elemsH (buildHeap [4, 2, 9]), d ≤ x :=
  claim_C7 (buildHeap [4, 2, 9]) (by decide) (by decide)

/-- Claim C8: combineTrees on two trees of equal order k makes the tree
with the larger root the new head child of the tree with the smaller (or
equal) root — the smaller tree's previous leftChild becoming the new
child's nextSibling — and the result's root order is k + 1. -/
theorem claim_C8 (da db : Int) (ca cb sa sb : NodeP) (k : Nat) :
    orderOf (combineTrees (.node da ca sa k) (.node db cb sb k)) = k + 1 ∧
    (da ≤ db → combineTrees (.node da ca sa k) (.node db cb sb k) =
      .node da (withSibling (.node db cb sb k) ca) sa (k + 1)) ∧
    (db < da → combineTrees (.node da ca sa k) (.node db cb sb k) =
      .node db (withSibling (.node da ca sa k) cb) sb (k + 1)) := by
  by_cases hd : da > db
  · refine ⟨?_, ?_, fun _ => ?_⟩
    · simp only [combineTrees, if_pos hd, orderOf]
    · intro hle
      exact absurd hd (not_lt.mpr hle)
    · simp only [combineTrees, if_pos hd, withSibling]
  · refine ⟨?_, fun _ => ?_, ?_⟩
    · simp only [combineTrees, if_neg hd, orderOf]
    · simp only [combineTrees, if_neg hd, withSibling]
    · intro hlt
      exact absurd hlt hd

/-- Witness for claim C8 at roots 1 and 2 of order 0. -/
theorem claim_C8_witness :
    orderOf (combineTrees (.node 1 .null .null 0) (.node 2 .null .null 0)) = 0 + 1 ∧
    ((1 : Int) ≤ 2 → combineTrees (.node 1 .null .null 0) (.node 2 .null .null 0) =
      .node 1 (withSibling (.node 2 .null .null 0) .null) .null (0 + 1)) ∧
    ((2 : Int) < 1 → combineTrees (.node 1 .null .null 0) (.node 2 .null .null 0) =
      .node 2 (withSibling (.node 1 .null .null 0) .null) .null (0 + 1)) :=
  claim_C8 1 2 .null .null .null .null 0

/-- Claim C9: move construction and move assignment transfer the forest
and the size to the destination; the source is left valid and empty (size
0, isEmpty, empty forest) and can be inserted into again afterward. -/
theorem claim_C9 (h d0 : Heap) (x : Int) :
    (moveConstruct h).1.size = h.size ∧ elemsH (moveConstruct h).1 = elemsH h ∧
    (moveConstruct h).1.forest = h.forest ∧
    (moveConstruct h).2.size = 0 ∧ (moveConstruct h).2.isEmpty = true ∧
    (moveConstruct h).2.forest = [] ∧
    (moveAssign d0 h false).1.size = h.size ∧
    elemsH (moveAssign d0 h false).1 = elemsH h ∧
    (moveAssign d0 h false).1.forest = h.forest ∧
    (moveAssign d0 h false).2.size = 0 ∧ (moveAssign d0 h false).2.isEmpty = true ∧
    (moveAssign d0 h false).2.forest = [] ∧
    Wf (moveConstruct h).2 ∧ Wf (insert (moveConstruct h).2 x) ∧
    elemsH (insert (moveConstruct h).2 x) = {x} := by
  obtain ⟨hwf', helems, _⟩ := insert_spec x wf_emptyHeap
  refine ⟨rfl, rfl, rfl, rfl, rfl, rfl, rfl, rfl, rfl, rfl, rfl, rfl,
    wf_emptyHeap, hwf', ?_⟩
  show elemsH (insert emptyHeap x) = {x}
  rw [helems]
  rfl

/-- Claim C10: copy-assigning a heap to itself takes the this != &other
branch guard, so it is the identity: same heap value, elements and size,
no node freed or duplicated. -/
theorem claim_C10 (h : Heap) :
    copyAssign h h true = h ∧ elemsH (copyAssign h h true) = elemsH h ∧
      (copyAssign h h true).size = h.size :=
  ⟨rfl, rfl, rfl⟩

/-- Claim C1 (divergence): merging B = {7} into an empty heap A leaves
B.size() == 1 and B.isEmpty() == false, because merge never resets the
argument's mSize; the claim (and the code's own documentation) demand
size 0 and isEmpty true. A's size is correctly summed. -/
theorem claim_C1_bug :
    ∃ p : Heap × Heap, merge emptyHeap (insert emptyHeap 7) = some p ∧
      p.2.size = 1 ∧ p.2.isEmpty = false ∧ p.1.size = 1 := by
  refine ⟨(⟨1, [.node 7 .null .null 0]⟩, ⟨1, [.null]⟩), by decide, rfl, rfl, rfl⟩

/-- Claim C3 (divergence): merging B = {1, 2} into a freshly constructed
empty heap A executes forest[1] = tree on A's empty vector — an
out-of-bounds write, undefined behaviour (modelled none) — instead of
producing a heap of size 2 that drains to 1, 2. -/
theorem claim_C3_bug : merge emptyHeap (buildHeap [1, 2]) = none := by decide

/-- Claim C6 (divergence): after the call sequence B.insert(5);
A.merge(B) the heap B violates the forest invariant: its tracked size is
1 while the sum of 2^i over its occupied slots is 0 (its forest was
cleared but mSize kept). -/
theorem claim_C6_bug :
    ∃ p : Heap × Heap, merge emptyHeap (insert emptyHeap 5) = some p ∧
      ¬ Wf p.2 ∧ p.2.mSize = 1 ∧ sumPow p.2.forest 0 = 0 := by
  refine ⟨(⟨1, [.node 5 .null .null 0]⟩, ⟨1, [.null]⟩), by decide, by decide, rfl, rfl⟩

/-! ### Self-merge: a pointer-arena model of the aliased call h.merge(h)

The pure model above cannot express aliasing (in h.merge(h) the argument
forest IS this->forest, and combineTrees receives the same node twice, so
node identity matters: the code builds a self-cycle). This section repeats
the same source functions over an arena: nodes live in a store indexed by
pointer identity, and every field assignment of the C++ is a store update,
in source order, which is exactly what runs when both pointers coincide. -/

/-- A stored BinomialTreeNode: same four fields, pointers as indices. -/
structure ANode where
  data : Int
  leftChild : Option Nat
  nextSibling : Option Nat
  order : Nat
deriving DecidableEq, Repr

/-- The node store; an index is a pointer identity. -/
abbrev Arena := List ANode

/-- Dereference a pointer (none: invalid pointer, undefined behaviour). -/
def readNode (ar : Arena) (i : Nat) : Option ANode := ar.get? i

def writeNode : Arena → Nat → (ANode → ANode) → Arena
  | [], _, _ => []
  | a :: ar, 0, g => g a :: ar
  | a :: ar, i + 1, g => a :: writeNode ar i g

/-- p->nextSibling = q. -/
def setNextSibling (ar : Arena) (i : Nat) (q : Option Nat) : Arena :=
  writeNode ar i fun n => ⟨n.data, n.leftChild, q, n.order⟩

/-- p->leftChild = q. -/
def setLeftChild (ar : Arena) (i : Nat) (q : Option Nat) : Arena :=
  writeNode ar i fun n => ⟨n.data, q, n.nextSibling, n.order⟩

/-- p->order++. -/
def bumpOrder (ar : Arena) (i : Nat) : Arena :=
  writeNode ar i fun n => ⟨n.data, n.leftChild, n.nextSibling, n.order + 1⟩

/-- The heap under the arena model: int mSize and the forest of pointers
(none = nullptr slot). -/
structure AHeap where
  mSize : Int
  forest : List (Option Nat)
deriving DecidableEq, Repr

/-- combineTrees under the arena: the null guards, the swap on
first->data > second->data, then the three field assignments in source
order — faithful when first and second are the same pointer. -/
def combineTreesA (ar : Arena) : Option Nat → Option Nat → Option (Arena × Option Nat)
  | none, none => some (ar, none)
  | none, some j => some (ar, some j)
  | some i, none => some (ar, some i)
  | some i, some j =>
      match readNode ar i, readNode ar j with
      | some ni, some nj =>
          let f := if ni.data > nj.data then j else i
          let s := if ni.data > nj.data then i else j
          match readNode ar f with
          | some nf =>
              let ar1 := setNextSibling ar s nf.leftChild
              let ar2 := setLeftChild ar1 f (some s)
              some (bumpOrder ar2 f, some f)
          | none => none
      | _, _ => none

/-- The while loop of insertTree over the forest suffix starting at slot
treeOrder, arena-threaded (same shape as carryInsert). -/
def carryInsertA : Arena → List (Option Nat) → Nat → Option (Arena × List (Option Nat))
  | ar, [], tp => some (ar, [some tp])
  | ar, none :: rest, tp => some (ar, some tp :: rest)
  | ar, some occ :: rest, tp =>
      match combineTreesA ar (some occ) (some tp) with
      | some (ar', some tp') =>
          match carryInsertA ar' rest tp' with
          | some (ar'', rest') => some (ar'', none :: rest')
          | none => none
      | _ => none

/-- insertTree under the arena: read treeNode->order, add 2^order to
mSize, run the carry loop; order beyond forest.size() is the
out-of-bounds write (undefined behaviour). -/
def insertTreeA (ar : Arena) (h : AHeap) (tp : Nat) : Option (Arena × AHeap) :=
  match readNode ar tp with
  | none => none
  | some n =>
      if n.order ≤ h.forest.length then
        match carryInsertA ar (h.forest.drop n.order) tp with
        | some (ar', suffix) =>
            some (ar', ⟨h.mSize + 2 ^ n.order, h.forest.take n.order ++ suffix⟩)
        | none => none
      else none

/-- The mergeForest loop of the self-merge h.merge(h): otherForest IS
this->forest, so each iteration re-reads the forest that insertTree just
rewrote, and the nulling of the processed slot hits the same vector. The
outer while re-evaluates otherForest.size() each round; fuel counts loop
iterations and none means the loop is still running after that many. -/
def selfMergeLoop : Nat → Arena → AHeap → Nat → Option (Arena × AHeap)
  | 0, _, _, _ => none
  | fuel + 1, ar, h, order =>
      if order < h.forest.length then
        match h.forest.get? order with
        | some (some tp) =>
            match insertTreeA ar h tp with
            | some (ar', h') =>
                selfMergeLoop fuel ar' ⟨h'.mSize, h'.forest.set order none⟩ (order + 1)
            | none => none
        | _ => selfMergeLoop fuel ar h (order + 1)
      else some (ar, h)

/-- h.merge(h): mergeForest(this->forest) with full aliasing. -/
def selfMerge (fuel : Nat) (ar : Arena) (h : AHeap) : Option (Arena × AHeap) :=
  selfMergeLoop fuel ar h 0

theorem repApp_get : ∀ (k : Nat) (x : Option Nat),
    (List.replicate k none ++ [x]).get? k = some x
  | 0, _ => rfl
  | k + 1, x => by
      rw [List.replicate_succ, List.cons_append]
      simp [List.get?, repApp_get k x]

theorem repApp_set_inner : ∀ (k : Nat) (x : Option Nat),
    (List.replicate (k + 1) (none : Option Nat) ++ [x]).set k none =
      List.replicate (k + 1) none ++ [x]
  | 0, _ => rfl
  | k + 1, x => by
      rw [List.replicate_succ (n := k + 1), List.cons_append, List.set_cons_succ,
        repApp_set_inner k x, ← List.cons_append, ← List.replicate_succ]

theorem repApp_cons : ∀ (k : Nat) (l : List (Option Nat)),
    List.replicate k (none : Option Nat) ++ none :: l =
      List.replicate (k + 1) none ++ l := by
  intro k l
  rw [List.replicate_succ' (n := k)]
  rw [List.append_assoc]
  rfl

/-- One full iteration of the aliased mergeForest loop from the stable
template state: the single node (self-cycled, order k) sits in the top
slot k; the iteration self-combines it (order k+1), pushes it to a new
top slot k+1, doubles the counted size, and the cursor follows. -/
theorem selfMergeLoop_step (f k : Nat) (m : Int) :
    selfMergeLoop (f + 1) [⟨5, some 0, some 0, k⟩]
        ⟨m, List.replicate k none ++ [some 0]⟩ k =
      selfMergeLoop f [⟨5, some 0, some 0, k + 1⟩]
        ⟨m + 2 ^ k, List.replicate (k + 1) none ++ [some 0]⟩ (k + 1) := by
  have hdrop : (List.replicate k (none : Option Nat) ++ [some 0]).drop k = [some 0] := by
    have := List.drop_left (List.replicate k (none : Option Nat)) [some 0]
    rwa [List.length_replicate] at this
  have htake : (List.replicate k (none : Option Nat) ++ [some 0]).take k =
      List.replicate k none := by
    have := List.take_left (List.replicate k (none : Option Nat)) [some 0]
    rwa [List.length_replicate] at this
  have hcarry : carryInsertA [⟨5, some 0, some 0, k⟩] [some 0] 0 =
      some ([⟨5, some 0, some 0, k + 1⟩], [none, some 0]) := rfl
  have hread : readNode [(⟨5, some 0, some 0, k⟩ : ANode)] 0 =
      some ⟨5, some 0, some 0, k⟩ := rfl
  have hc1 : (k < (List.replicate k (none : Option Nat) ++ [some 0]).length) = True :=
    eq_true (by simp)
  have hc2 : (k ≤ (List.replicate k (none : Option Nat) ++ [some 0]).length) = True :=
    eq_true (by simp)
  have hget := repApp_get k (some 0)
  have hset := repApp_set_inner k (some 0)
  have hcons := repApp_cons k [some 0]
  simp only [selfMergeLoop, hc1, if_true, hget, insertTreeA, hread, hc2, hdrop,
    hcarry, htake, hcons, hset]

/-- From the template state the aliased loop never terminates: no fuel
suffices. -/
theorem selfMergeLoop_diverges : ∀ (f k : Nat) (m : Int),
    selfMergeLoop f [⟨5, some 0, some 0, k⟩]
      ⟨m, List.replicate k none ++ [some 0]⟩ k = none
  | 0, _, _ => rfl
  | f + 1, k, m => by
      rw [selfMergeLoop_step f k m]
      exact selfMergeLoop_diverges f (k + 1) (m + 2 ^ k)

/-- Claim C2 (divergence): h.merge(h) on the one-element heap {5} never
terminates: for every iteration bound the aliased mergeForest loop is
still running. The first pass self-combines the node (making it its own
leftChild), pushes it one slot up and doubles mSize, and every later pass
chases it again. -/
theorem claim_C2_bug : ∀ fuel : Nat,
    selfMerge fuel [⟨5, none, none, 0⟩] ⟨1, [some 0]⟩ = none
  | 0 => rfl
  | 1 => rfl
  | 2 => rfl
  | fuel + 3 => by
      have e2 : selfMerge (fuel + 3) [⟨5, none, none, 0⟩] ⟨1, [some 0]⟩ =
          selfMergeLoop (fuel + 1) [⟨5, some 0, some 0, 2⟩]
            ⟨4, [none, none, some 0]⟩ 2 := rfl
      rw [e2]
      have h2 : ([none, none, some 0] : List (Option Nat)) =
          List.replicate 2 none ++ [some 0] := rfl
      rw [h2]
      exact selfMergeLoop_diverges (fuel + 1) 2 4

end BinHeap
